import Mathlib

/- A shallow embedding of the tnum (tristate number) abstract domain of
`src/main.rs`, together with proofs and refutations of the specification
claims about it.  Machine integers (`u64`, `u128`, `i64`) are modelled as
`Nat`/`Int` with explicit reductions modulo `2 ^ 64` (resp. `2 ^ 128`)
wherever the Rust code wraps.  Rust operations that abort in every build
profile (division/remainder by zero) are modelled with `Option`, `none`
standing for the abort; arithmetic overflow of `+` and of an over-wide `<<`
is modelled with the release-profile wrapping/masking semantics. -/

/-- The modulus of the 64-bit word domain. -/
abbrev U64 : Nat := 2 ^ 64

/-- The modulus of the 128-bit scratch domain. -/
abbrev U128 : Nat := 2 ^ 128

/-- Bitwise complement within 64 bits (`!x` on a `u64`). -/
def not64 (x : Nat) : Nat := (U64 - 1) ^^^ x

/-- Bitwise complement within 128 bits (`!x` on a `u128`). -/
def not128 (x : Nat) : Nat := (U128 - 1) ^^^ x

/-- Embeds `u64::wrapping_sub`. -/
def wsub64 (x y : Nat) : Nat := (x + (U64 - y % U64)) % U64

/-- Fuel-based bit length (the position of the highest set bit plus one). -/
def sizeAux : Nat → Nat → Nat
  | 0, _ => 0
  | fuel + 1, x => if x = 0 then 0 else sizeAux fuel (x / 2) + 1

/-- Bit length of a 64-bit word. -/
def size64 (x : Nat) : Nat := sizeAux 64 x

/-- Embeds `u64::leading_zeros` of a 64-bit word. -/
def lz64 (x : Nat) : Nat := 64 - size64 x

/-- Fuel-based auxiliary for `u64::trailing_zeros`. -/
def tzAux : Nat → Nat → Nat
  | 0, _ => 0
  | fuel + 1, x => if x % 2 = 1 then 0 else tzAux fuel (x / 2) + 1

/-- Embeds `u64::trailing_zeros` of a 64-bit word. -/
def tz64 (x : Nat) : Nat := tzAux 64 x

/-- Embeds `Tnum` from `src/main.rs`: a `value` and a `mask`, both `u64` fields. -/
structure Tnum where
  value : Nat
  mask : Nat
deriving DecidableEq

/-- The `bottom` element: both fields all-ones. -/
def Tnum.bottom : Tnum := ⟨U64 - 1, U64 - 1⟩

/-- The `top` element: value `0`, mask all-ones. -/
def Tnum.top : Tnum := ⟨0, U64 - 1⟩

/-- Embeds `const_val`: the singleton tnum of a concrete word. -/
def Tnum.const_val (v : Nat) : Tnum := ⟨v, 0⟩

/-- Embeds `is_zero`. -/
def Tnum.is_zero (t : Tnum) : Bool := t.value == 0 && t.mask == 0

/-- Embeds `is_bottom`: some bit is claimed both known and unknown. -/
def Tnum.is_bottom (t : Tnum) : Bool := t.value &&& t.mask != 0

/-- Embeds `is_top`. -/
def Tnum.is_top (t : Tnum) : Bool := t.value == 0 && t.mask == U64 - 1

/-- Embeds `is_singleton`. -/
def Tnum.is_singleton (t : Tnum) : Bool := t.mask == 0

/-- Embeds `is_nonnegative`: the top bit is known `0`. -/
def Tnum.is_nonnegative (t : Tnum) : Bool :=
  t.value &&& 2 ^ 63 == 0 && t.mask &&& 2 ^ 63 == 0

/-- Embeds `is_negative`: the top bit is known `1`. -/
def Tnum.is_negative (t : Tnum) : Bool :=
  t.value &&& 2 ^ 63 != 0 && t.mask &&& 2 ^ 63 == 0

/-- Embeds `count_min_leading_zeros`: leading zeros of `value.wrapping_add(mask)`. -/
def Tnum.count_min_leading_zeros (t : Tnum) : Nat := lz64 ((t.value + t.mask) % U64)

/-- Embeds `count_min_trailing_zeros`: trailing zeros of `value.wrapping_add(mask)`. -/
def Tnum.count_min_trailing_zeros (t : Tnum) : Nat := tz64 ((t.value + t.mask) % U64)

/-- Embeds `clear_high_bits` on a raw `u64` (the `BitOps` impl).  For `n = 0` the
source computes `1u64 << 64`, an overflowing shift, so the release-profile
masked-shift semantics (`1 << 0`) applies. -/
def clearHigh64 (x : Nat) (n : Nat) : Nat :=
  if 64 ≤ n then 0 else x &&& (1 <<< ((64 - n) % 64) - 1)

/-- Embeds `Tnum::clear_high_bits`, with the same masked-shift semantics at `n = 0`. -/
def Tnum.clear_high_bits (t : Tnum) (n : Nat) : Tnum :=
  if 64 ≤ n then ⟨0, 0⟩
  else ⟨t.value &&& (1 <<< ((64 - n) % 64) - 1), t.mask &&& (1 <<< ((64 - n) % 64) - 1)⟩

/-- Embeds `tnum_rshift`: `u64::wrapping_shr` on both fields (shift taken mod 64). -/
def Tnum.tnum_rshift (t : Tnum) (shift : Nat) : Tnum :=
  ⟨t.value >>> (shift % 64), t.mask >>> (shift % 64)⟩

/-- Embeds `shl_const`: constant left shift, shift amount reduced `k % 64`. -/
def Tnum.shl_const (t : Tnum) (k : Nat) : Tnum :=
  if t.is_bottom then t
  else if t.is_top then t
  else ⟨(t.value <<< (k % 64)) % U64, (t.mask <<< (k % 64)) % U64⟩

/-- Embeds `lshr_const`: constant logical right shift (`wrapping_shr` masks mod 64). -/
def Tnum.lshr_const (t : Tnum) (k : Nat) : Tnum :=
  if t.is_bottom then t
  else if t.is_top then t
  else ⟨t.value >>> (k % 64), t.mask >>> (k % 64)⟩

/-- Embeds `Tnum::add`: the carry-propagation transfer function (no bottom/top check
in the source). -/
def Tnum.add (a b : Tnum) : Tnum :=
  let sm := (a.mask + b.mask) % U64
  let sv := (a.value + b.value) % U64
  let sigma := (sm + sv) % U64
  let chi := sigma ^^^ sv
  let mu := chi ||| a.mask ||| b.mask
  ⟨sv &&& not64 mu, mu⟩

/-- Embeds `Tnum::sub`. -/
def Tnum.sub (a b : Tnum) : Tnum :=
  if a.is_bottom || b.is_bottom then Tnum.bottom
  else if a.is_top || b.is_top then Tnum.top
  else
    let dv := wsub64 a.value b.value
    let alpha := (dv + a.mask) % U64
    let beta := wsub64 dv b.mask
    let chi := alpha ^^^ beta
    let mu := chi ||| a.mask ||| b.mask
    ⟨dv &&& not64 mu, mu⟩

/-- Embeds `Tnum::not`: flips only the known bits. -/
def Tnum.not (t : Tnum) : Tnum :=
  if t.is_bottom then Tnum.bottom
  else if t.is_top then Tnum.top
  else ⟨not64 (t.value ^^^ t.mask), t.mask⟩

/-- Embeds `Tnum::join`. -/
def Tnum.join (a b : Tnum) : Tnum :=
  let v := a.value ^^^ b.value
  let m := a.mask ||| b.mask ||| v
  ⟨(a.value ||| b.value) &&& not64 m, m⟩

/-- Embeds `Tnum::le`: the abstract-domain partial order test. -/
def Tnum.le (a b : Tnum) : Bool :=
  if b.is_top || a.is_bottom then true
  else if b.is_bottom || a.is_top then false
  else if a.value == b.value && a.mask == b.mask then true
  else if a.mask &&& not64 b.mask != 0 then false
  else a.value &&& not64 b.mask == b.value

/-- Embeds `Tnum::or`: lattice merge used by `sdiv`/`lshr`. -/
def Tnum.or (a b : Tnum) : Tnum :=
  if a.le b then b
  else if b.le a then a
  else
    let mu := a.mask ||| b.mask
    let this_know := a.value &&& not64 mu
    let x_know := b.value &&& not64 mu
    let disagree := this_know ^^^ x_know
    ⟨this_know &&& x_know, mu ||| disagree⟩

/-- Embeds `from_range`: smallest tnum containing the inclusive interval. -/
def Tnum.from_range (min max : Nat) : Tnum :=
  let chi := min ^^^ max
  let bits := 64 - lz64 chi
  if 63 < bits then ⟨0, U64 - 1⟩
  else
    let delta := (1 <<< bits) - 1
    ⟨min &&& not64 delta, delta⟩

/-- Embeds `rem_get_low_bits`: the low-bit structure a remainder keeps. -/
def rem_get_low_bits (lhs rhs : Tnum) : Tnum :=
  if !rhs.is_zero && (rhs.value &&& 1 == 0) && (rhs.mask &&& 1 == 0) then
    let qzero := rhs.count_min_trailing_zeros
    if qzero == 0 then Tnum.top
    else
      let mask := if 1 < qzero then (1 <<< (qzero % 64)) % U64 - 1 else 0
      ⟨lhs.value &&& mask, lhs.mask &&& mask⟩
  else Tnum.top

/-- Embeds `Tnum::urem`. -/
def Tnum.urem (a b : Tnum) : Tnum :=
  if a.is_bottom || b.is_bottom then Tnum.bottom
  else if a.is_top || b.is_top then Tnum.top
  else if b.value = 0 then Tnum.top
  else
    let res := rem_get_low_bits a b
    if b.mask == 0 && !((b.value >>> 63) &&& 1 == 1)
        && (tz64 b.value + lz64 b.value + 1 == 64) then
      let low_bits := b.value - 1
      ⟨low_bits &&& a.value, low_bits &&& a.mask⟩
    else
      let leading_zeros := max a.count_min_leading_zeros b.count_min_leading_zeros
      res.clear_high_bits leading_zeros

/-- Centre a mathematical integer into the `i64` value range (two's-complement
wrap-around). -/
def wrap64i (x : Int) : Int := (x + 2 ^ 63) % 2 ^ 64 - 2 ^ 63

/-- Reinterpret a `u64` bit pattern as an `i64` value. -/
def toI64 (x : Nat) : Int := wrap64i x

/-- Reinterpret an integer as a `u64` bit pattern (two's complement). -/
def toU64 (x : Int) : Nat := (x % 2 ^ 64).toNat

/-- Embeds `i64::wrapping_div` (rounds toward zero, wraps on overflow). -/
def wdiv64 (a b : Int) : Int := wrap64i (Int.tdiv a b)

/-- Embeds `i64::wrapping_rem` (takes the dividend's sign, wraps on overflow). -/
def wrem64 (a b : Int) : Int := wrap64i (Int.tmod a b)

/-- Embeds `Tnum::srem`; `none` models the division-by-zero panic of the
`wrapping_rem` in the singleton/singleton branch. -/
def Tnum.srem (a b : Tnum) : Option Tnum :=
  if a.is_bottom || b.is_bottom then some Tnum.bottom
  else if a.is_top || b.is_top then some Tnum.top
  else if a.is_singleton && b.is_singleton then
    if b.value = 0 then none
    else some ⟨toU64 (wrem64 (toI64 a.value) (toI64 b.value)), 0⟩
  else if b.value = 0 then some Tnum.top
  else
    let res := rem_get_low_bits a b
    if b.mask == 0 && (b.value &&& 1 == 0)
        && (tz64 b.value + lz64 b.value + 1 == 64) then
      let low_bits := b.value - 1
      let res1 := if a.is_nonnegative || decide (tz64 b.value ≤ a.count_min_trailing_zeros)
        then (⟨low_bits &&& res.value, low_bits &&& res.mask⟩ : Tnum) else res
      let res2 := if a.is_negative && (not64 (a.value &&& low_bits) == 0)
        then (⟨not64 low_bits ||| res1.value, low_bits &&& res1.mask⟩ : Tnum) else res1
      some res2
    else
      some ⟨clearHigh64 res.value a.count_min_leading_zeros,
        clearHigh64 res.mask a.count_min_leading_zeros⟩

/-- Embeds `get_signed_min_value`. -/
def Tnum.get_signed_min_value (t : Tnum) : Nat :=
  if (t.value >>> 63) &&& 1 = 1 then t.value ||| t.mask else t.value

/-- Embeds `get_signed_max_value`. -/
def Tnum.get_signed_max_value (t : Tnum) : Nat :=
  if (t.value >>> 63) &&& 1 = 1 then t.value else t.value ||| t.mask

/-- Embeds `get_zero_circle`: clamp to the nonnegative sub-range. -/
def Tnum.get_zero_circle (t : Tnum) : Tnum :=
  if t.value &&& 2 ^ 63 ≠ 0 then ⟨2 ^ 63 - 1, 2 ^ 63 - 1⟩
  else if t.mask &&& 2 ^ 63 ≠ 0 then ⟨t.value, t.mask &&& (2 ^ 63 - 1)⟩
  else t

/-- Embeds `get_one_circle`: clamp to the negative sub-range. -/
def Tnum.get_one_circle (t : Tnum) : Tnum :=
  if t.value &&& 2 ^ 63 ≠ 0 then t
  else if t.mask &&& 2 ^ 63 ≠ 0 then ⟨t.value ||| 2 ^ 63, t.mask &&& (2 ^ 63 - 1)⟩
  else ⟨U64 - 1, U64 - 1⟩

/-- Embeds `Tnum::udiv`. -/
def Tnum.udiv (a b : Tnum) : Tnum :=
  if a.is_bottom || b.is_bottom then Tnum.bottom
  else if a.is_top || b.is_top then Tnum.top
  else if b.value = 0 then Tnum.top
  else
    let maxRes := (a.value + a.mask) % U64 / b.value
    let leadz := lz64 maxRes
    Tnum.top.clear_high_bits leadz

/-- The trailing sign-run adjustment of `signed_div` (the `tmp`-driven block
that builds the result out of `Tnum::top`). -/
def Tnum.sdivAdjust (tmp : Int) : Tnum :=
  if tmp ≠ 0 then
    if Int.emod (Int.fdiv tmp (2 ^ 63)) 2 = 0 then
      Tnum.top.clear_high_bits (lz64 (toU64 tmp))
    else
      let lead_ones := lz64 (toU64 (-tmp - 1))
      if 0 < lead_ones then
        let high_mask := ((U64 - 1) <<< ((64 - lead_ones) % 64)) % U64
        ⟨Tnum.top.value ||| high_mask, Tnum.top.mask &&& not64 high_mask⟩
      else Tnum.top
  else Tnum.top

/-- Embeds `Tnum::signed_div`; `none` models a division-by-zero panic of
`wrapping_div`. -/
def Tnum.signed_div (a b : Tnum) : Option Tnum :=
  if a.is_bottom || b.is_bottom then some Tnum.bottom
  else if a.is_singleton && b.is_singleton then
    if b.value = 0 then none else some ⟨a.value / b.value, 0⟩
  else if a.is_nonnegative && b.is_nonnegative then some (a.udiv b)
  else if a.is_negative && b.is_negative then
    if a.value == 2 ^ 63 && b.is_singleton && (b.value == U64 - 1) then some Tnum.top
    else
      let denom := b.get_signed_max_value
      let num := a.get_signed_min_value
      if ¬(num = 2 ^ 63 ∧ denom = 2 ^ 63 - 1) then
        if toI64 denom = 0 then none
        else some (Tnum.sdivAdjust (wdiv64 (toI64 num) (toI64 denom)))
      else some (Tnum.sdivAdjust (2 ^ 63 - 1))
  else if a.is_negative && b.is_nonnegative then
    let neg_lhs_max := wrap64i (-toI64 a.get_signed_max_value)
    if toI64 b.get_signed_max_value ≤ neg_lhs_max then
      let denom := b.get_signed_min_value
      let num := a.get_signed_min_value
      if toI64 denom = 0 then none
      else some (Tnum.sdivAdjust (wdiv64 (toI64 num) (toI64 denom)))
    else some (Tnum.sdivAdjust 0)
  else if a.is_nonnegative && b.is_negative then
    let neg_rhs_min := wrap64i (-toI64 b.get_signed_min_value)
    if toU64 neg_rhs_min ≤ a.get_signed_min_value then
      let denom := b.get_signed_max_value
      let num := a.get_signed_max_value
      if toI64 denom = 0 then none
      else some (Tnum.sdivAdjust (wdiv64 (toI64 num) (toI64 denom)))
    else some (Tnum.sdivAdjust 0)
  else some (Tnum.sdivAdjust 0)

/-- Embeds `Tnum::sdiv`: sign-case splitting over the zero/one circles. -/
def Tnum.sdiv (a b : Tnum) : Option Tnum :=
  if a.is_bottom || b.is_bottom then some Tnum.bottom
  else if a.is_top || b.is_top then some Tnum.top
  else if b.value = 0 then some Tnum.top
  else if a.mask == 0 && b.mask == 0 then some ⟨a.value / b.value, 0⟩
  else do
    let t0 := a.get_zero_circle
    let t1 := a.get_one_circle
    let x0 := b.get_zero_circle
    let x1 := b.get_one_circle
    let res00 ← t0.signed_div x0
    let res01 ← t0.signed_div x1
    let res10 ← t1.signed_div x0
    let res11 ← t1.signed_div x1
    some (((res00.or res01).or res10).or res11)

/-- Embeds `TnumU128`: the 128-bit scratch tnum. -/
structure TnumU128 where
  value : Nat
  mask : Nat
deriving DecidableEq

/-- Embeds `TnumU128::add`. -/
def TnumU128.add (a b : TnumU128) : TnumU128 :=
  let sm := (a.mask + b.mask) % U128
  let sv := (a.value + b.value) % U128
  let sigma := (sm + sv) % U128
  let chi := sigma ^^^ sv
  let mu := chi ||| a.mask ||| b.mask
  ⟨sv &&& not128 mu, mu⟩

/-- The `while` loop of `TnumU128::mul` (shift-and-add over the bits of `a`,
accumulating the mask contribution). -/
def TnumU128.mulLoop (a b acc : TnumU128) : TnumU128 :=
  if h : a.value = 0 ∧ a.mask = 0 then acc
  else
    let acc2 :=
      if a.value % 2 = 1 then acc.add ⟨0, b.mask⟩
      else if a.mask % 2 = 1 then acc.add ⟨0, b.value ||| b.mask⟩
      else acc
    TnumU128.mulLoop ⟨a.value / 2, a.mask / 2⟩
      ⟨(b.value * 2) % U128, (b.mask * 2) % U128⟩ acc2
termination_by a.value + a.mask
decreasing_by
  omega

/-- Embeds `TnumU128::mul`. -/
def TnumU128.mul (a b : TnumU128) : TnumU128 :=
  let acc_v := (a.value * b.value) % U128
  let acc_m := TnumU128.mulLoop a b ⟨0, 0⟩
  (TnumU128.mk acc_v 0).add acc_m

/-- Modelled from the spec: the tagged classification returned by the external
reciprocal-constant generator (`fastdivide::DividerU64`), consumed by
`fast_divide` as a black box.  `Fast` carries a magic multiplier and a shift,
`BitShift` a plain shift for a power-of-two divisor, and `General` a low magic
word requiring the add-back correction. -/
inductive DividerU64 where
  | Fast (magic : Nat) (shift : Nat)
  | BitShift (shift : Nat)
  | General (magic_low : Nat) (shift : Nat)
deriving DecidableEq

/-- Modelled from the spec: the contract of the `Fast` classification — the
magic multiplier and shift satisfy `floor(n / d) == ((n * magic) >> 64) >>
shift` for all representable `n` (the product taken at full width, its high
64 bits kept, then shifted). -/
def FastContract (d magic shift : Nat) : Prop :=
  ∀ n, n < U64 → n / d = n * magic / U64 / 2 ^ shift

/-- Embeds `Tnum::fast_divide`, parameterised by the external reciprocal-constant
classifier (`DividerU64::divide_by` in the source). -/
def Tnum.fast_divide (cf : Nat → DividerU64) (a b : Tnum) : Option Tnum :=
  if b.mask == 0 && b.value == 0 then some Tnum.top
  else if b.mask == 0 && b.value == 1 then some a
  else if b.mask == 0 then
    match cf b.value with
    | DividerU64.Fast magic shift =>
        let product := (a.value * magic) % U64
        let high_part := product >>> 32
        let result_value := high_part >>> (shift % 64)
        let mask_product := (a.mask * magic) % U64
        let mask_high := mask_product >>> 32
        let result_mask := mask_high >>> (shift % 64)
        some ⟨result_value, result_mask⟩
    | DividerU64.BitShift shift => some (a.tnum_rshift shift)
    | DividerU64.General magic_low shift =>
        let self128 := TnumU128.mk a.value a.mask
        let other128 := TnumU128.mk magic_low 0
        let temp := self128.mul other128
        let q := Tnum.mk (temp.value >>> 64) (temp.mask >>> 64)
        let res := ((a.sub q).tnum_rshift 1).add q
        some (res.tnum_rshift shift)
  else a.sdiv b

/-- Concretisation membership: `w ∈ γ(t)` iff `(w XOR t.value) & !t.mask == 0`. -/
def tmem (w : Nat) (t : Tnum) : Prop := (w ^^^ t.value) &&& not64 t.mask = 0

instance (w : Nat) (t : Tnum) : Decidable (tmem w t) :=
  inferInstanceAs (Decidable (_ = _))

/-- Well-formedness of a `Tnum` whose fields came from `u64` values: the
fields are in range and no bit is both known and unknown. -/
def Wf (t : Tnum) : Prop := t.value < U64 ∧ t.mask < U64 ∧ t.value &&& t.mask = 0

instance (t : Tnum) : Decidable (Wf t) :=
  inferInstanceAs (Decidable (_ ∧ _ ∧ _))

/- ### Generic bit-level helper lemmas -/

theorem testBit_ge_64 {x : Nat} (hx : x < U64) {i : Nat} (hi : 64 ≤ i) :
    x.testBit i = false :=
  Nat.testBit_lt_two_pow (lt_of_lt_of_le hx (Nat.pow_le_pow_right (by norm_num) hi))

theorem testBit_not64 (x i : Nat) :
    (not64 x).testBit i = (decide (i < 64) ^^ x.testBit i) := by
  rw [not64, Nat.testBit_xor, Nat.testBit_two_pow_sub_one]

theorem not64_xor (a b : Nat) : not64 a ^^^ b = not64 (a ^^^ b) := by
  rw [not64, not64, Nat.xor_assoc]

theorem not64_not64 (x : Nat) : not64 (not64 x) = x := by
  rw [not64, not64, ← Nat.xor_assoc, Nat.xor_self, Nat.zero_xor]

theorem not64_allones : not64 (U64 - 1) = 0 := Nat.xor_self _

theorem lor_ones_left {y : Nat} (hy : y < U64) : (U64 - 1) ||| y = U64 - 1 := by
  apply Nat.eq_of_testBit_eq
  intro i
  rw [Nat.testBit_or, Nat.testBit_two_pow_sub_one]
  by_cases hi : i < 64
  · simp [hi]
  · simp [hi, testBit_ge_64 hy (le_of_not_lt hi)]

theorem lor_ones_right {y : Nat} (hy : y < U64) : y ||| (U64 - 1) = U64 - 1 := by
  rw [Nat.lor_comm]; exact lor_ones_left hy

theorem testBit_mod_u64 {X : Nat} {i : Nat} (hi : i < 64) :
    (X % U64).testBit i = X.testBit i := by
  rw [show U64 = 2 ^ 64 from rfl, Nat.testBit_mod_two_pow]
  simp [hi]

theorem testBit_eq_iff_mod2p {n i : Nat} :
    n.testBit i = decide (n % 2 ^ (i + 1) / 2 ^ i = 1) := by
  rw [Nat.testBit_to_div_mod, pow_succ, Nat.mod_mul_right_div_self]

theorem testBit_congr {X Y i : Nat} (h : X % 2 ^ (i + 1) = Y % 2 ^ (i + 1)) :
    X.testBit i = Y.testBit i := by
  rw [testBit_eq_iff_mod2p, testBit_eq_iff_mod2p, h]

theorem bits_disjoint {x y : Nat} (h : x &&& y = 0) (i : Nat) :
    x / 2 ^ i % 2 + y / 2 ^ i % 2 ≤ 1 := by
  have hb : (x.testBit i && y.testBit i) = false := by
    rw [← Nat.testBit_and, h, Nat.zero_testBit]
  rw [Nat.testBit_to_div_mod, Nat.testBit_to_div_mod] at hb
  have h2 : x / 2 ^ i % 2 < 2 := Nat.mod_lt _ (by norm_num)
  have h3 : y / 2 ^ i % 2 < 2 := Nat.mod_lt _ (by norm_num)
  by_cases p1 : x / 2 ^ i % 2 = 1
  · by_cases p2 : y / 2 ^ i % 2 = 1
    · rw [decide_eq_true p1, decide_eq_true p2] at hb
      exact absurd hb (by simp)
    · omega
  · omega

theorem bit_le_of_subset {x y : Nat} (h : x &&& y = x) (i : Nat) :
    x / 2 ^ i % 2 ≤ y / 2 ^ i % 2 := by
  have hb : (x.testBit i && y.testBit i) = x.testBit i := by
    rw [← Nat.testBit_and, h]
  rw [Nat.testBit_to_div_mod, Nat.testBit_to_div_mod] at hb
  have h2 : x / 2 ^ i % 2 < 2 := Nat.mod_lt _ (by norm_num)
  have h3 : y / 2 ^ i % 2 < 2 := Nat.mod_lt _ (by norm_num)
  by_cases p1 : x / 2 ^ i % 2 = 1
  · rw [decide_eq_true p1, Bool.true_and] at hb
    have := of_decide_eq_true hb
    omega
  · omega

theorem disjoint_mod_add_lt {x y : Nat} (h : x &&& y = 0) (i : Nat) :
    x % 2 ^ i + y % 2 ^ i < 2 ^ i := by
  induction i with
  | zero => simp [Nat.mod_one]
  | succ i ih =>
    have hx : x % 2 ^ (i + 1) = x % 2 ^ i + 2 ^ i * (x / 2 ^ i % 2) := Nat.mod_pow_succ
    have hy : y % 2 ^ (i + 1) = y % 2 ^ i + 2 ^ i * (y / 2 ^ i % 2) := Nat.mod_pow_succ
    have hbit := bits_disjoint h i
    have hbx : x / 2 ^ i % 2 = 0 ∨ x / 2 ^ i % 2 = 1 := by omega
    have hby : y / 2 ^ i % 2 = 0 ∨ y / 2 ^ i % 2 = 1 := by omega
    rw [hx, hy, pow_succ]
    rcases hbx with hbx | hbx <;> rcases hby with hby | hby <;> rw [hbx, hby] <;> omega

theorem disjoint_add_mod {x y : Nat} (h : x &&& y = 0) (i : Nat) :
    (x + y) % 2 ^ i = x % 2 ^ i + y % 2 ^ i := by
  rw [Nat.add_mod]
  exact Nat.mod_eq_of_lt (disjoint_mod_add_lt h i)

theorem subset_mod_le {x y : Nat} (h : x &&& y = x) (i : Nat) :
    x % 2 ^ i ≤ y % 2 ^ i := by
  induction i with
  | zero => simp [Nat.mod_one]
  | succ i ih =>
    have hx : x % 2 ^ (i + 1) = x % 2 ^ i + 2 ^ i * (x / 2 ^ i % 2) := Nat.mod_pow_succ
    have hy : y % 2 ^ (i + 1) = y % 2 ^ i + 2 ^ i * (y / 2 ^ i % 2) := Nat.mod_pow_succ
    have hbit := bit_le_of_subset h i
    have hbx : x / 2 ^ i % 2 = 0 ∨ x / 2 ^ i % 2 = 1 := by omega
    have hby : y / 2 ^ i % 2 = 0 ∨ y / 2 ^ i % 2 = 1 := by omega
    rw [hx, hy]
    rcases hbx with hbx | hbx <;> rcases hby with hby | hby <;> rw [hbx, hby] <;> omega

theorem disjoint_add_eq_or {x y : Nat} (h : x &&& y = 0) : x + y = x ||| y := by
  apply Nat.eq_of_testBit_eq
  intro i
  have hp : 0 < (2 : Nat) ^ i := Nat.two_pow_pos i
  have hu := disjoint_mod_add_lt h i
  have hx : x % 2 ^ (i + 1) = x % 2 ^ i + 2 ^ i * (x / 2 ^ i % 2) := Nat.mod_pow_succ
  have hy : y % 2 ^ (i + 1) = y % 2 ^ i + 2 ^ i * (y / 2 ^ i % 2) := Nat.mod_pow_succ
  have hbit := bits_disjoint h i
  have key : (x + y) % 2 ^ (i + 1) / 2 ^ i = x / 2 ^ i % 2 + y / 2 ^ i % 2 := by
    rw [disjoint_add_mod h (i + 1), hx, hy]
    have harr : x % 2 ^ i + 2 ^ i * (x / 2 ^ i % 2) + (y % 2 ^ i + 2 ^ i * (y / 2 ^ i % 2))
        = x % 2 ^ i + y % 2 ^ i + 2 ^ i * (x / 2 ^ i % 2 + y / 2 ^ i % 2) := by ring
    rw [harr, Nat.add_mul_div_left _ _ hp, Nat.div_eq_of_lt hu, Nat.zero_add]
  rw [Nat.testBit_or, testBit_eq_iff_mod2p, Nat.testBit_to_div_mod, Nat.testBit_to_div_mod, key]
  have hbx : x / 2 ^ i % 2 = 0 ∨ x / 2 ^ i % 2 = 1 := by omega
  have hby : y / 2 ^ i % 2 = 0 ∨ y / 2 ^ i % 2 = 1 := by omega
  rcases hbx with hbx | hbx <;> rcases hby with hby | hby
  · rw [hbx, hby]; simp
  · rw [hbx, hby]; simp
  · rw [hbx, hby]; simp
  · exfalso; omega

theorem tmem_iff_mk {w v m : Nat} (hm : m < U64) :
    tmem w ⟨v, m⟩ ↔ ∀ i, i < 64 → m.testBit i = false → w.testBit i = v.testBit i := by
  show (w ^^^ v) &&& not64 m = 0 ↔ _
  constructor
  · intro h i hi hmi
    have hb : ((w ^^^ v) &&& not64 m).testBit i = false := by
      rw [h, Nat.zero_testBit]
    rw [Nat.testBit_and, testBit_not64, Nat.testBit_xor, hmi] at hb
    simp only [hi, decide_True, Bool.xor_false, Bool.and_true] at hb
    cases h1 : w.testBit i <;> cases h2 : v.testBit i <;> simp_all
  · intro h
    apply Nat.eq_of_testBit_eq
    intro i
    rw [Nat.testBit_and, testBit_not64, Nat.testBit_xor, Nat.zero_testBit]
    by_cases hi : i < 64
    · by_cases hmi : m.testBit i = true
      · simp [hmi, hi]
      · rw [Bool.not_eq_true] at hmi
        rw [h i hi hmi, hmi]
        simp
    · simp [testBit_ge_64 hm (le_of_not_lt hi), hi]

theorem tmem_decompose {w : Nat} {A : Tnum} (hA : Wf A) (hw : w < U64) (h : tmem w A) :
    w = A.value + (w &&& A.mask) ∧ (w &&& A.mask) &&& A.mask = w &&& A.mask := by
  obtain ⟨hAv, hAm, hAd⟩ := hA
  have hsub : (w &&& A.mask) &&& A.mask = w &&& A.mask := by
    rw [Nat.and_assoc, Nat.and_self]
  refine ⟨?_, hsub⟩
  obtain ⟨v, m⟩ := A
  have hAv : v < U64 := hAv
  have hAm : m < U64 := hAm
  have hAd : v &&& m = 0 := hAd
  have hval : v = w &&& not64 m := by
    apply Nat.eq_of_testBit_eq
    intro i
    rw [Nat.testBit_and, testBit_not64]
    by_cases hi : i < 64
    · by_cases hmi : m.testBit i = true
      · have hv0 : v.testBit i = false := by
          have hb : (v.testBit i && m.testBit i) = false := by
            rw [← Nat.testBit_and, hAd, Nat.zero_testBit]
          rw [hmi, Bool.and_true] at hb
          exact hb
        rw [hv0, hmi]
        simp [hi]
      · rw [Bool.not_eq_true] at hmi
        have hww := (tmem_iff_mk hAm).mp h i hi hmi
        rw [← hww, hmi]
        simp [hi]
    · rw [testBit_ge_64 hAv (le_of_not_lt hi), testBit_ge_64 hAm (le_of_not_lt hi)]
      simp [hi, testBit_ge_64 hw (le_of_not_lt hi)]
  have hdisj : (w &&& not64 m) &&& (w &&& m) = 0 := by
    apply Nat.eq_of_testBit_eq
    intro i
    rw [Nat.testBit_and, Nat.testBit_and, Nat.testBit_and, testBit_not64, Nat.zero_testBit]
    by_cases hi : i < 64
    · cases hmi : m.testBit i <;> cases hwi : w.testBit i <;> simp [hi, hmi, hwi]
    · simp [hi, testBit_ge_64 hAm (le_of_not_lt hi)]
  have hor : (w &&& not64 m) ||| (w &&& m) = w := by
    apply Nat.eq_of_testBit_eq
    intro i
    rw [Nat.testBit_or, Nat.testBit_and, Nat.testBit_and, testBit_not64]
    by_cases hi : i < 64
    · cases hmi : m.testBit i <;> cases hwi : w.testBit i <;> simp [hi, hmi, hwi]
    · simp [hi, testBit_ge_64 hw (le_of_not_lt hi)]
  show w = v + (w &&& m)
  calc w = (w &&& not64 m) + (w &&& m) := by
        rw [disjoint_add_eq_or hdisj, hor]
    _ = v + (w &&& m) := by rw [← hval]

theorem lowbit_div {p c xr : Nat} (hp : 0 < p) (hxr : xr < p) :
    (xr + p * c) % (p * 2) / p = c % 2 := by
  have h1 : p * c % (p * 2) = p * (c % 2) := Nat.mul_mod_mul_left p c 2
  have hc : c % 2 = 0 ∨ c % 2 = 1 := by omega
  have h2 : (xr + p * c) % (p * 2) = xr + p * (c % 2) := by
    rw [Nat.add_mod, Nat.mod_eq_of_lt (show xr < p * 2 by omega), h1]
    apply Nat.mod_eq_of_lt
    rcases hc with hc | hc <;> rw [hc] <;> omega
  rw [h2, Nat.add_mul_div_left _ _ hp, Nat.div_eq_of_lt hxr, Nat.zero_add]

theorem div_two_cases (p X : Nat) (hp : 0 < p) (h2 : X < p * 2) :
    (X / p = 0 ∧ X < p) ∨ (X / p = 1 ∧ p ≤ X) := by
  by_cases hX : X < p
  · exact Or.inl ⟨Nat.div_eq_of_lt hX, hX⟩
  · refine Or.inr ⟨?_, le_of_not_lt hX⟩
    exact Nat.div_eq_of_lt_le (by omega) (by omega)

theorem carry_core {p Avr Amr Bvr Bmr alr ber av bv : Nat}
    (hp : 0 < p) (hAvr : Avr < p) (hBvr : Bvr < p)
    (hF1 : Avr + Amr < p) (hF2 : Bvr + Bmr < p)
    (hS1 : alr ≤ Amr) (hS2 : ber ≤ Bmr)
    (hchi : (Amr + Bmr + (Avr + p * av + (Bvr + p * bv))) % (p * 2) / p
      = (Avr + p * av + (Bvr + p * bv)) % (p * 2) / p) :
    (Avr + p * av + alr + (Bvr + p * bv + ber)) % (p * 2) / p
      = (Avr + p * av + (Bvr + p * bv)) % (p * 2) / p := by
  have hsd : (Avr + Bvr + Amr + Bmr) % p + p * ((Avr + Bvr + Amr + Bmr) / p)
      = Avr + Bvr + Amr + Bmr := Nat.mod_add_div _ _
  have hsd2 : (Avr + Bvr) % p + p * ((Avr + Bvr) / p) = Avr + Bvr := Nat.mod_add_div _ _
  have hsd3 : (Avr + alr + (Bvr + ber)) % p + p * ((Avr + alr + (Bvr + ber)) / p)
      = Avr + alr + (Bvr + ber) := Nat.mod_add_div _ _
  have r1 : Amr + Bmr + (Avr + p * av + (Bvr + p * bv))
      = (Avr + Bvr + Amr + Bmr) % p
        + p * (av + bv + (Avr + Bvr + Amr + Bmr) / p) := by
    have hdist : p * (av + bv + (Avr + Bvr + Amr + Bmr) / p)
        = p * av + p * bv + p * ((Avr + Bvr + Amr + Bmr) / p) := by ring
    omega
  have r2 : Avr + p * av + (Bvr + p * bv)
      = (Avr + Bvr) % p + p * (av + bv + (Avr + Bvr) / p) := by
    have hdist : p * (av + bv + (Avr + Bvr) / p)
        = p * av + p * bv + p * ((Avr + Bvr) / p) := by ring
    omega
  have r3 : Avr + p * av + alr + (Bvr + p * bv + ber)
      = (Avr + alr + (Bvr + ber)) % p
        + p * (av + bv + (Avr + alr + (Bvr + ber)) / p) := by
    have hdist : p * (av + bv + (Avr + alr + (Bvr + ber)) / p)
        = p * av + p * bv + p * ((Avr + alr + (Bvr + ber)) / p) := by ring
    omega
  rw [r1, r2, lowbit_div hp (Nat.mod_lt _ hp), lowbit_div hp (Nat.mod_lt _ hp)] at hchi
  rw [r2, r3, lowbit_div hp (Nat.mod_lt _ hp), lowbit_div hp (Nat.mod_lt _ hp)]
  have c1 := div_two_cases p (Avr + Bvr + Amr + Bmr) hp (by omega)
  have c2 := div_two_cases p (Avr + Bvr) hp (by omega)
  have c3 := div_two_cases p (Avr + alr + (Bvr + ber)) hp (by omega)
  omega

theorem add_carry_bit {Av Am Bv Bm al be : Nat} (i : Nat) (hi : i < 64)
    (hAd : Av &&& Am = 0) (hBd : Bv &&& Bm = 0)
    (hal : al &&& Am = al) (hbe : be &&& Bm = be)
    (hAmi : Am.testBit i = false) (hBmi : Bm.testBit i = false)
    (hchi : (((Am + Bm) % U64 + (Av + Bv) % U64) % U64).testBit i
      = ((Av + Bv) % U64).testBit i) :
    (Av + al + (Bv + be)).testBit i = (Av + Bv).testBit i := by
  have hp : 0 < (2 : Nat) ^ i := Nat.two_pow_pos i
  have hdvd : (2 : Nat) ^ (i + 1) ∣ U64 := Nat.pow_dvd_pow 2 (by omega)
  have hstrip : ∀ X : Nat, X % U64 % 2 ^ (i + 1) = X % 2 ^ (i + 1) := fun X =>
    Nat.mod_mod_of_dvd X hdvd
  -- strip the U64 wrap-arounds from the carry hypothesis
  have t1 : (((Am + Bm) % U64 + (Av + Bv) % U64) % U64).testBit i
      = (Am + Bm + (Av + Bv)).testBit i := by
    apply testBit_congr
    rw [hstrip, Nat.add_mod, hstrip, hstrip, ← Nat.add_mod]
  have t2 : ((Av + Bv) % U64).testBit i = (Av + Bv).testBit i := testBit_congr (hstrip _)
  rw [t1, t2] at hchi
  -- bit i of the masks and of the mask-subsets is zero
  have hAm0 : Am / 2 ^ i % 2 = 0 := by
    rw [Nat.testBit_to_div_mod] at hAmi
    have := of_decide_eq_false hAmi
    have h2 : Am / 2 ^ i % 2 < 2 := Nat.mod_lt _ (by norm_num)
    omega
  have hBm0 : Bm / 2 ^ i % 2 = 0 := by
    rw [Nat.testBit_to_div_mod] at hBmi
    have := of_decide_eq_false hBmi
    have h2 : Bm / 2 ^ i % 2 < 2 := Nat.mod_lt _ (by norm_num)
    omega
  have hal0 : al / 2 ^ i % 2 = 0 := by
    have := bit_le_of_subset hal i
    omega
  have hbe0 : be / 2 ^ i % 2 = 0 := by
    have := bit_le_of_subset hbe i
    omega
  -- truncated components
  have hAv2 : Av % 2 ^ (i + 1) = Av % 2 ^ i + 2 ^ i * (Av / 2 ^ i % 2) := Nat.mod_pow_succ
  have hBv2 : Bv % 2 ^ (i + 1) = Bv % 2 ^ i + 2 ^ i * (Bv / 2 ^ i % 2) := Nat.mod_pow_succ
  have hAm2 : Am % 2 ^ (i + 1) = Am % 2 ^ i := by
    rw [Nat.mod_pow_succ, hAm0, Nat.mul_zero, Nat.add_zero]
  have hBm2 : Bm % 2 ^ (i + 1) = Bm % 2 ^ i := by
    rw [Nat.mod_pow_succ, hBm0, Nat.mul_zero, Nat.add_zero]
  have hal2 : al % 2 ^ (i + 1) = al % 2 ^ i := by
    rw [Nat.mod_pow_succ, hal0, Nat.mul_zero, Nat.add_zero]
  have hbe2 : be % 2 ^ (i + 1) = be % 2 ^ i := by
    rw [Nat.mod_pow_succ, hbe0, Nat.mul_zero, Nat.add_zero]
  -- replace every summand by its truncation modulo 2 ^ (i + 1)
  have hme : ∀ A B C D : Nat, (A + B + (C + D)) % 2 ^ (i + 1)
      = (A % 2 ^ (i + 1) + B % 2 ^ (i + 1) + (C % 2 ^ (i + 1) + D % 2 ^ (i + 1))) % 2 ^ (i + 1) := by
    intro A B C D
    exact ((Nat.mod_modEq A _).symm.add (Nat.mod_modEq B _).symm).add
      ((Nat.mod_modEq C _).symm.add (Nat.mod_modEq D _).symm)
  have e1 : (Am + Bm + (Av + Bv)).testBit i
      = (Am % 2 ^ i + Bm % 2 ^ i + (Av % 2 ^ i + 2 ^ i * (Av / 2 ^ i % 2)
          + (Bv % 2 ^ i + 2 ^ i * (Bv / 2 ^ i % 2)))).testBit i := by
    apply testBit_congr
    rw [hme, hAm2, hBm2, hAv2, hBv2]
  have e2 : (Av + Bv).testBit i
      = (Av % 2 ^ i + 2 ^ i * (Av / 2 ^ i % 2)
          + (Bv % 2 ^ i + 2 ^ i * (Bv / 2 ^ i % 2))).testBit i := by
    apply testBit_congr
    have step := (Nat.mod_modEq Av (2 ^ (i + 1))).symm.add (Nat.mod_modEq Bv (2 ^ (i + 1))).symm
    rw [hAv2, hBv2] at step
    exact step
  have e3 : (Av + al + (Bv + be)).testBit i
      = (Av % 2 ^ i + 2 ^ i * (Av / 2 ^ i % 2) + al % 2 ^ i
          + (Bv % 2 ^ i + 2 ^ i * (Bv / 2 ^ i % 2) + be % 2 ^ i)).testBit i := by
    apply testBit_congr
    have step := ((Nat.mod_modEq Av (2 ^ (i + 1))).symm.add
        (Nat.mod_modEq al (2 ^ (i + 1))).symm).add
      ((Nat.mod_modEq Bv (2 ^ (i + 1))).symm.add (Nat.mod_modEq be (2 ^ (i + 1))).symm)
    rw [hAv2, hal2, hBv2, hbe2] at step
    exact step
  rw [e1, e2] at hchi
  rw [e3, e2]
  -- reduce to the arithmetic carry core
  have hF1 := disjoint_mod_add_lt hAd i
  have hF2 := disjoint_mod_add_lt hBd i
  have hS1 := subset_mod_le hal i
  have hS2 := subset_mod_le hbe i
  rw [testBit_eq_iff_mod2p, testBit_eq_iff_mod2p, pow_succ] at hchi ⊢
  rw [decide_eq_decide] at hchi ⊢
  have hAvr : Av % 2 ^ i < 2 ^ i := Nat.mod_lt _ hp
  have hBvr : Bv % 2 ^ i < 2 ^ i := Nat.mod_lt _ hp
  have hb1 : (Am % 2 ^ i + Bm % 2 ^ i + (Av % 2 ^ i + 2 ^ i * (Av / 2 ^ i % 2)
      + (Bv % 2 ^ i + 2 ^ i * (Bv / 2 ^ i % 2)))) % (2 ^ i * 2) / 2 ^ i
      = (Av % 2 ^ i + 2 ^ i * (Av / 2 ^ i % 2)
        + (Bv % 2 ^ i + 2 ^ i * (Bv / 2 ^ i % 2))) % (2 ^ i * 2) / 2 ^ i := by
    have q1 : (Am % 2 ^ i + Bm % 2 ^ i + (Av % 2 ^ i + 2 ^ i * (Av / 2 ^ i % 2)
        + (Bv % 2 ^ i + 2 ^ i * (Bv / 2 ^ i % 2)))) % (2 ^ i * 2) / 2 ^ i < 2 := by
      rw [Nat.div_lt_iff_lt_mul hp]
      have := Nat.mod_lt (Am % 2 ^ i + Bm % 2 ^ i + (Av % 2 ^ i + 2 ^ i * (Av / 2 ^ i % 2)
        + (Bv % 2 ^ i + 2 ^ i * (Bv / 2 ^ i % 2)))) (show 0 < 2 ^ i * 2 by omega)
      omega
    have q2 : (Av % 2 ^ i + 2 ^ i * (Av / 2 ^ i % 2)
        + (Bv % 2 ^ i + 2 ^ i * (Bv / 2 ^ i % 2))) % (2 ^ i * 2) / 2 ^ i < 2 := by
      rw [Nat.div_lt_iff_lt_mul hp]
      have := Nat.mod_lt (Av % 2 ^ i + 2 ^ i * (Av / 2 ^ i % 2)
        + (Bv % 2 ^ i + 2 ^ i * (Bv / 2 ^ i % 2))) (show 0 < 2 ^ i * 2 by omega)
      omega
    by_cases hE : (Am % 2 ^ i + Bm % 2 ^ i + (Av % 2 ^ i + 2 ^ i * (Av / 2 ^ i % 2)
        + (Bv % 2 ^ i + 2 ^ i * (Bv / 2 ^ i % 2)))) % (2 ^ i * 2) / 2 ^ i = 1
    · rw [hE]
      exact (hchi.mp hE).symm
    · have h2 : ¬((Av % 2 ^ i + 2 ^ i * (Av / 2 ^ i % 2)
          + (Bv % 2 ^ i + 2 ^ i * (Bv / 2 ^ i % 2))) % (2 ^ i * 2) / 2 ^ i = 1) :=
        fun hc => hE (hchi.mpr hc)
      generalize hg1 : (Am % 2 ^ i + Bm % 2 ^ i + (Av % 2 ^ i + 2 ^ i * (Av / 2 ^ i % 2)
        + (Bv % 2 ^ i + 2 ^ i * (Bv / 2 ^ i % 2)))) % (2 ^ i * 2) / 2 ^ i = A1 at q1 hE ⊢
      generalize hg2 : (Av % 2 ^ i + 2 ^ i * (Av / 2 ^ i % 2)
        + (Bv % 2 ^ i + 2 ^ i * (Bv / 2 ^ i % 2))) % (2 ^ i * 2) / 2 ^ i = B1 at q2 h2 ⊢
      omega
  -- carry-core with the renamed components
  have hcc := carry_core hp hAvr hBvr hF1 hF2 hS1 hS2 hb1
  rw [hcc]


/- ### Bit-length and trailing-zero lemmas -/

theorem sizeAux_zero : ∀ fuel : Nat, sizeAux fuel 0 = 0 := by
  intro fuel
  cases fuel <;> simp [sizeAux]

theorem sizeAux_le : ∀ fuel x n : Nat, x < 2 ^ n → sizeAux fuel x ≤ n := by
  intro fuel
  induction fuel with
  | zero => intro x n h; simp [sizeAux]
  | succ fuel ih =>
    intro x n h
    simp only [sizeAux]
    by_cases hx : x = 0
    · simp [hx]
    · rw [if_neg hx]
      cases n with
      | zero => exact absurd (by omega : x = 0) hx
      | succ n =>
        have h2 : x / 2 < 2 ^ n := by rw [pow_succ] at h; omega
        have := ih (x / 2) n h2
        omega

theorem lt_two_pow_sizeAux : ∀ fuel x : Nat, x < 2 ^ fuel → x < 2 ^ sizeAux fuel x := by
  intro fuel
  induction fuel with
  | zero => intro x h; simpa [sizeAux] using h
  | succ fuel ih =>
    intro x h
    simp only [sizeAux]
    by_cases hx : x = 0
    · simp [hx]
    · rw [if_neg hx]
      have h2 : x / 2 < 2 ^ fuel := by rw [pow_succ] at h; omega
      have := ih (x / 2) h2
      rw [pow_succ]
      omega

theorem sizeAux_pos (fuel x : Nat) (hx : 0 < x) : 0 < sizeAux (fuel + 1) x := by
  simp only [sizeAux]
  rw [if_neg (by omega)]
  omega

theorem sizeAux_pow : ∀ fuel k : Nat, k < fuel → sizeAux fuel (2 ^ k) = k + 1 := by
  intro fuel
  induction fuel with
  | zero => intro k hk; omega
  | succ fuel ih =>
    intro k hk
    simp only [sizeAux]
    rw [if_neg (Nat.two_pow_pos k).ne']
    cases k with
    | zero =>
      rw [show (2 : Nat) ^ 0 / 2 = 0 from rfl, sizeAux_zero]
    | succ j =>
      have h2 : 2 ^ (j + 1) / 2 = 2 ^ j := by rw [pow_succ]; omega
      rw [h2, ih j (by omega)]

theorem tzAux_pow : ∀ fuel k : Nat, k < fuel → tzAux fuel (2 ^ k) = k := by
  intro fuel
  induction fuel with
  | zero => intro k hk; omega
  | succ fuel ih =>
    intro k hk
    simp only [tzAux]
    cases k with
    | zero => rw [if_pos (show (2 : Nat) ^ 0 % 2 = 1 from rfl)]
    | succ j =>
      rw [if_neg (by rw [pow_succ]; omega)]
      have h2 : 2 ^ (j + 1) / 2 = 2 ^ j := by rw [pow_succ]; omega
      rw [h2, ih j (by omega)]

theorem tz64_two_pow {k : Nat} (hk : k < 64) : tz64 (2 ^ k) = k := tzAux_pow 64 k hk

theorem size64_two_pow {k : Nat} (hk : k < 64) : size64 (2 ^ k) = k + 1 := sizeAux_pow 64 k hk

theorem lz64_two_pow {k : Nat} (hk : k < 64) : lz64 (2 ^ k) = 63 - k := by
  unfold lz64
  rw [size64_two_pow hk]
  omega

/- ### Claim C4 -/

/-- Claim C4 (counterexample): `bottom` is not absorbed by `add` — already at
`X = const_val 0` the sum is `top`, not `bottom`. -/
theorem Tnum.bottom_add_const0_ne_bottom :
    Tnum.bottom.add (Tnum.const_val 0) ≠ Tnum.bottom := by decide

/-- Claim C4 (amended): `Tnum::add` performs no bottom check; for every tnum
`X` with `u64` fields, `bottom().add(X)` and `X.add(bottom())` are `top`,
not `bottom`. -/
theorem Tnum.bottom_add_eq_top (X : Tnum) (hv : X.value < U64) (hm : X.mask < U64) :
    Tnum.bottom.add X = Tnum.top ∧ X.add Tnum.bottom = Tnum.top := by
  have hchi : ∀ a b : Nat, a % U64 ^^^ b % U64 < U64 :=
    fun a b => Nat.xor_lt_two_pow (Nat.mod_lt _ (by norm_num)) (Nat.mod_lt _ (by norm_num))
  constructor
  · simp only [Tnum.add, Tnum.bottom, Tnum.top]
    have h1 : (((U64 - 1 + X.mask) % U64 + (U64 - 1 + X.value) % U64) % U64
        ^^^ (U64 - 1 + X.value) % U64) ||| (U64 - 1) ||| X.mask = U64 - 1 := by
      rw [lor_ones_right (hchi _ _), lor_ones_left hm]
    rw [h1, not64_allones, Nat.and_zero]
  · simp only [Tnum.add, Tnum.bottom, Tnum.top]
    have h1 : (((X.mask + (U64 - 1)) % U64 + (X.value + (U64 - 1)) % U64) % U64
        ^^^ (X.value + (U64 - 1)) % U64) ||| X.mask ||| (U64 - 1) = U64 - 1 := by
      exact lor_ones_right (Nat.or_lt_two_pow (hchi _ _) hm)
    rw [h1, not64_allones, Nat.and_zero]

/-- Claim C4 (witness): the amended statement at `X = const_val 1`. -/
theorem Tnum.bottom_add_eq_top_witness :
    Tnum.bottom.add (Tnum.const_val 1) = Tnum.top ∧
      (Tnum.const_val 1).add Tnum.bottom = Tnum.top :=
  Tnum.bottom_add_eq_top (Tnum.const_val 1) (by decide) (by decide)

/- ### Claim C9 -/

theorem not64_xor_and_self {v m : Nat} (hm : m < U64) (hd : v &&& m = 0) :
    not64 (v ^^^ m) &&& m = 0 := by
  apply Nat.eq_of_testBit_eq
  intro i
  rw [Nat.testBit_and, testBit_not64, Nat.testBit_xor, Nat.zero_testBit]
  have hdb : (v.testBit i && m.testBit i) = false := by
    rw [← Nat.testBit_and, hd, Nat.zero_testBit]
  by_cases hi : i < 64
  · simp only [hi, decide_True, Bool.true_xor]
    cases hvb : v.testBit i <;> cases hmb : m.testBit i <;> simp_all
  · simp [testBit_ge_64 hm (le_of_not_lt hi)]

/-- Claim C9: `not` is an involution on well-formed tnums. -/
theorem Tnum.not_not_id (x : Tnum) (h : Wf x) : x.not.not = x := by
  obtain ⟨hv, hm, hd⟩ := h
  have hb : x.is_bottom = false := by
    simp [Tnum.is_bottom, hd]
  by_cases htop : x.is_top = true
  · have hx : x = Tnum.top := by
      cases x with
      | mk v m =>
        simp only [Tnum.is_top, Bool.and_eq_true, beq_iff_eq] at htop
        simp [Tnum.top, htop.1, htop.2]
    rw [hx]; decide
  · rw [Bool.not_eq_true] at htop
    cases x with
    | mk v m =>
    simp only [Tnum.not, hb, htop, Bool.false_eq_true, if_false]
    have hd0 : v &&& m = 0 := hd
    have hm0 : m < U64 := hm
    have hb1 : Tnum.is_bottom ⟨not64 (v ^^^ m), m⟩ = false := by
      simp [Tnum.is_bottom, not64_xor_and_self hm0 hd0]
    have ht1 : Tnum.is_top ⟨not64 (v ^^^ m), m⟩ = false := by
      by_cases hmE : m = U64 - 1
      · exfalso
        have hv0 : v = 0 := by
          have h2 := hd0
          rw [hmE] at h2
          rwa [Nat.and_pow_two_sub_one_eq_mod, Nat.mod_eq_of_lt hv] at h2
        have h3 : Tnum.is_top ⟨v, m⟩ = true := by
          simp [Tnum.is_top, hv0, hmE]
        rw [h3] at htop
        exact Bool.noConfusion htop
      · show (not64 (v ^^^ m) == 0 && m == U64 - 1) = false
        simp [hmE]
    simp only [Tnum.not, hb1, ht1, Bool.false_eq_true, if_false]
    have hxx : not64 (not64 (v ^^^ m) ^^^ m) = v := by
      rw [not64_xor, Nat.xor_assoc, Nat.xor_self, Nat.xor_zero, not64_not64]
    rw [hxx]

/-- Claim C9 (witness): the involution at the concrete tnum `{value 2, mask 1}`. -/
theorem Tnum.not_not_id_witness :
    (Tnum.mk 2 1).not.not = Tnum.mk 2 1 :=
  Tnum.not_not_id (Tnum.mk 2 1) (by decide)

/- ### Claim C10 -/

/-- Claim C10: `shl_const` reduces the shift amount mod 64, so a shift by the
full word width acts as a shift by zero on any non-bottom non-top tnum. -/
theorem Tnum.shl_const_sixtyfour_id (t : Tnum) (hv : t.value < U64) (hm : t.mask < U64)
    (hb : t.is_bottom = false) (ht : t.is_top = false) : t.shl_const 64 = t := by
  cases t with
  | mk v m =>
    simp only [Tnum.shl_const, hb, ht, Bool.false_eq_true, if_false]
    have h64 : 64 % 64 = 0 := rfl
    rw [h64, Nat.shiftLeft_zero, Nat.shiftLeft_zero,
      Nat.mod_eq_of_lt hv, Nat.mod_eq_of_lt hm]

/-- Claim C10 (witness): shifting `{value 5, mask 2}` left by 64 is the identity. -/
theorem Tnum.shl_const_sixtyfour_id_witness :
    (Tnum.mk 5 2).shl_const 64 = Tnum.mk 5 2 :=
  Tnum.shl_const_sixtyfour_id (Tnum.mk 5 2) (by decide) (by decide) (by decide) (by decide)

/- ### Claim C5 -/

/-- Claim C5: soundness of `add` — for all well-formed tnums `A` and `B` and
all concrete 64-bit words `a ∈ γ(A)` and `b ∈ γ(B)`, the wrapping sum
`(a + b) mod 2^64` is in the concretisation of `A.add B`. -/
theorem Tnum.add_sound (A B : Tnum) (hA : Wf A) (hB : Wf B) (a b : Nat)
    (ha : a < U64) (hb : b < U64) (hmA : tmem a A) (hmB : tmem b B) :
    tmem ((a + b) % U64) (A.add B) := by
  obtain ⟨haeq, hal⟩ := tmem_decompose hA ha hmA
  obtain ⟨hbeq, hbe⟩ := tmem_decompose hB hb hmB
  obtain ⟨hAv, hAm, hAd⟩ := hA
  obtain ⟨hBv, hBm, hBd⟩ := hB
  simp only [Tnum.add]
  have hchiB : ((A.mask + B.mask) % U64 + (A.value + B.value) % U64) % U64
      ^^^ (A.value + B.value) % U64 < U64 :=
    Nat.xor_lt_two_pow (Nat.mod_lt _ (by norm_num)) (Nat.mod_lt _ (by norm_num))
  have hmu : (((A.mask + B.mask) % U64 + (A.value + B.value) % U64) % U64
      ^^^ (A.value + B.value) % U64) ||| A.mask ||| B.mask < U64 :=
    Nat.or_lt_two_pow (Nat.or_lt_two_pow hchiB hAm) hBm
  rw [tmem_iff_mk hmu]
  intro i hi hmui
  have hsplit : ∀ x y : Bool, (x || y) = false → x = false ∧ y = false := by decide
  rw [Nat.testBit_or] at hmui
  obtain ⟨h12, hBmi⟩ := hsplit _ _ hmui
  rw [Nat.testBit_or] at h12
  obtain ⟨hc0, hAmi⟩ := hsplit _ _ h12
  -- the result's known bit at `i` is the bit of the wrapped value sum
  rw [Nat.testBit_and, testBit_not64, Nat.testBit_or, Nat.testBit_or, hc0, hAmi, hBmi]
  simp only [hi, decide_True, Bool.or_false, Bool.xor_false, Bool.and_true]
  -- convert the chi-bit condition into the carry hypothesis
  rw [Nat.testBit_xor] at hc0
  have hxorf : ∀ x y : Bool, (x ^^ y) = false → x = y := by decide
  have hchieq : (((A.mask + B.mask) % U64 + (A.value + B.value) % U64) % U64).testBit i
      = ((A.value + B.value) % U64).testBit i := hxorf _ _ hc0
  rw [testBit_mod_u64 hi, testBit_mod_u64 hi, haeq, hbeq]
  exact add_carry_bit i hi hAd hBd hal hbe hAmi hBmi hchieq

/-- Claim C5 (witness): `3 ∈ γ({2,1})`, `5 ∈ γ({4,3})`, and `8` is in the
concretisation of their abstract sum. -/
theorem Tnum.add_sound_witness : tmem ((3 + 5) % U64) ((Tnum.mk 2 1).add (Tnum.mk 4 3)) :=
  Tnum.add_sound (Tnum.mk 2 1) (Tnum.mk 4 3) (by decide) (by decide) 3 5
    (by decide) (by decide) (by decide) (by decide)

/- ### Claim C6 -/

/-- Claim C6 (counterexample): for the well-formed, non-top dividend
`{value 1, mask 2^63}` and the power-of-two divisor `2^63` (so `k = 63 < 64`),
`urem` does not equal the claimed AND-mask tnum `{value 1, mask 0}`: the
general path calls `clear_high_bits(0)`, whose overflowing shift (release
semantics) clears both fields to `{0, 0}`. -/
theorem Tnum.urem_pow2_high_cex :
    Wf (Tnum.mk 1 (2 ^ 63)) ∧ (Tnum.mk 1 (2 ^ 63)).is_top = false
      ∧ Tnum.urem (Tnum.mk 1 (2 ^ 63)) (Tnum.const_val (2 ^ 63)) = Tnum.mk 0 0
      ∧ Tnum.urem (Tnum.mk 1 (2 ^ 63)) (Tnum.const_val (2 ^ 63))
          ≠ Tnum.mk ((Tnum.mk 1 (2 ^ 63)).value &&& (2 ^ 63 - 1))
              ((Tnum.mk 1 (2 ^ 63)).mask &&& (2 ^ 63 - 1)) := by decide

/-- Claim C6 (amended): for every well-formed tnum `A` that is neither bottom
nor top and every `k < 64`, `A.urem(const_val(2^k))` equals exactly
`Tnum (value AND (2^k - 1)) (mask AND (2^k - 1))` provided `k ≤ 62`, or
`k = 63` with the top bit of `A` known zero (`A.value ||| A.mask < 2^63`);
for `k = 63` with a possibly-set top bit the code instead clears the result
(release semantics; a debug build panics on the shift overflow). -/
theorem Tnum.urem_pow2_eq_and_mask (A : Tnum) (k : Nat) (hA : Wf A)
    (ht : A.is_top = false) (hk : k < 64)
    (hcase : k ≤ 62 ∨ A.value ||| A.mask < 2 ^ 63) :
    A.urem (Tnum.const_val (2 ^ k))
      = Tnum.mk (A.value &&& (2 ^ k - 1)) (A.mask &&& (2 ^ k - 1)) := by
  obtain ⟨hv, hm, hd⟩ := hA
  have hb : A.is_bottom = false := by simp [Tnum.is_bottom, hd]
  have hbb : (Tnum.const_val (2 ^ k)).is_bottom = false := by
    simp [Tnum.is_bottom, Tnum.const_val]
  have hbt : (Tnum.const_val (2 ^ k)).is_top = false := by
    simp [Tnum.is_top, Tnum.const_val]
  have hnz : ¬((Tnum.const_val (2 ^ k)).value = 0) := by
    show ¬(2 ^ k = 0)
    exact (Nat.two_pow_pos k).ne'
  simp only [Tnum.urem, hb, hbb, ht, hbt, Bool.or_self, Bool.false_eq_true, if_false]
  rw [if_neg hnz]
  by_cases hk62 : k ≤ 62
  · -- the power-of-two fast branch is taken
    have hshift : ((Tnum.const_val (2 ^ k)).value >>> 63) &&& 1 = 0 := by
      show (2 ^ k >>> 63) &&& 1 = 0
      rw [Nat.shiftRight_eq_div_pow,
        Nat.div_eq_of_lt (Nat.pow_lt_pow_right (by norm_num) (by omega)), Nat.zero_and]
    have hsum : tz64 (Tnum.const_val (2 ^ k)).value + lz64 (Tnum.const_val (2 ^ k)).value + 1
        = 64 := by
      show tz64 (2 ^ k) + lz64 (2 ^ k) + 1 = 64
      rw [tz64_two_pow hk, lz64_two_pow hk]
      omega
    have hbc : ((Tnum.const_val (2 ^ k)).mask == 0
        && !(((Tnum.const_val (2 ^ k)).value >>> 63) &&& 1 == 1)
        && (tz64 (Tnum.const_val (2 ^ k)).value + lz64 (Tnum.const_val (2 ^ k)).value + 1
          == 64)) = true := by
      rw [show (Tnum.const_val (2 ^ k)).mask = 0 from rfl, hshift, hsum]
      decide
    rw [if_pos hbc]
    show Tnum.mk ((2 ^ k - 1) &&& A.value) ((2 ^ k - 1) &&& A.mask) = _
    congr 1
    · exact Nat.and_comm _ _
    · exact Nat.and_comm _ _
  · -- k = 63: the general path
    have hk63 : k = 63 := by omega
    subst hk63
    have hlow : A.value ||| A.mask < 2 ^ 63 := by
      rcases hcase with hc | hc
      · omega
      · exact hc
    have hneg : ¬(((Tnum.const_val (2 ^ 63)).mask == 0
        && !(((Tnum.const_val (2 ^ 63)).value >>> 63) &&& 1 == 1)
        && (tz64 (Tnum.const_val (2 ^ 63)).value + lz64 (Tnum.const_val (2 ^ 63)).value + 1
          == 64)) = true) := by decide
    rw [if_neg hneg]
    have hrlb : rem_get_low_bits A (Tnum.const_val (2 ^ 63))
        = Tnum.mk (A.value &&& (2 ^ 63 - 1)) (A.mask &&& (2 ^ 63 - 1)) := by
      simp only [rem_get_low_bits]
      rw [if_pos (by decide : (!(Tnum.const_val (2 ^ 63)).is_zero
        && ((Tnum.const_val (2 ^ 63)).value &&& 1 == 0)
        && ((Tnum.const_val (2 ^ 63)).mask &&& 1 == 0)) = true)]
      rw [show Tnum.count_min_trailing_zeros (Tnum.const_val (2 ^ 63)) = 63 from by decide]
      rw [if_neg (by decide : ¬(((63 : Nat) == 0) = true)),
        if_pos (by norm_num : (1 : Nat) < 63),
        show (1 <<< (63 % 64) : Nat) % U64 - 1 = 2 ^ 63 - 1 from by decide]
    rw [hrlb]
    rw [show Tnum.count_min_leading_zeros (Tnum.const_val (2 ^ 63)) = 0 from by decide,
      Nat.max_zero]
    have hvm : Tnum.count_min_leading_zeros A = lz64 (A.value ||| A.mask) := by
      unfold Tnum.count_min_leading_zeros
      rw [disjoint_add_eq_or hd, Nat.mod_eq_of_lt (Nat.or_lt_two_pow hv hm)]
    rw [hvm]
    have hor := disjoint_add_eq_or hd
    by_cases hz : A.value ||| A.mask = 0
    · have hv0 : A.value = 0 := by omega
      have hm0 : A.mask = 0 := by omega
      rw [hz, hv0, hm0]
      show Tnum.clear_high_bits (Tnum.mk (0 &&& (2 ^ 63 - 1)) (0 &&& (2 ^ 63 - 1)))
        (lz64 0) = _
      rw [Nat.zero_and]
      decide
    · have hspos : 0 < size64 (A.value ||| A.mask) := by
        unfold size64
        have := sizeAux_pos 63 (A.value ||| A.mask) (Nat.pos_of_ne_zero hz)
        exact this
      have hsle : size64 (A.value ||| A.mask) ≤ 63 :=
        sizeAux_le 64 (A.value ||| A.mask) 63 hlow
      have hlt : A.value ||| A.mask < 2 ^ size64 (A.value ||| A.mask) :=
        lt_two_pow_sizeAux 64 _ (lt_trans hlow (by norm_num))
      have hvle : A.value ≤ A.value ||| A.mask := by omega
      have hmle : A.mask ≤ A.value ||| A.mask := by omega
      unfold lz64
      unfold Tnum.clear_high_bits
      rw [if_neg (by omega : ¬(64 ≤ 64 - size64 (A.value ||| A.mask)))]
      have h64 : (64 - (64 - size64 (A.value ||| A.mask))) % 64
          = size64 (A.value ||| A.mask) := by omega
      rw [h64, Nat.one_shiftLeft]
      congr 1
      · show A.value &&& (2 ^ 63 - 1) &&& (2 ^ size64 (A.value ||| A.mask) - 1) = _
        rw [Nat.and_pow_two_sub_one_eq_mod, Nat.and_pow_two_sub_one_eq_mod]
        rw [Nat.mod_eq_of_lt (by omega : A.value < 2 ^ 63)]
        exact Nat.mod_eq_of_lt (by omega)
      · show A.mask &&& (2 ^ 63 - 1) &&& (2 ^ size64 (A.value ||| A.mask) - 1) = _
        rw [Nat.and_pow_two_sub_one_eq_mod, Nat.and_pow_two_sub_one_eq_mod]
        rw [Nat.mod_eq_of_lt (by omega : A.mask < 2 ^ 63)]
        exact Nat.mod_eq_of_lt (by omega)

/-- Claim C6 (witness): the spec's literal scenario — `{value 0, mask 0xF}`
urem `const_val 4` equals exactly `{value 0, mask 3}`. -/
theorem Tnum.urem_pow2_eq_and_mask_witness :
    Tnum.urem (Tnum.mk 0 15) (Tnum.const_val (2 ^ 2)) = Tnum.mk 0 3 := by
  have h := Tnum.urem_pow2_eq_and_mask (Tnum.mk 0 15) 2 (by decide) (by decide)
    (by decide) (Or.inl (by decide))
  simpa using h

/- ### Claim C7 -/

theorem xor_lt_imp_shiftRight_eq {mn mx s : Nat} (h : mn ^^^ mx < 2 ^ s) :
    mn >>> s = mx >>> s := by
  apply Nat.eq_of_testBit_eq
  intro j
  rw [Nat.testBit_shiftRight, Nat.testBit_shiftRight]
  have hxf : ∀ x y : Bool, (x ^^ y) = false → x = y := by decide
  apply hxf
  rw [← Nat.testBit_xor]
  exact Nat.testBit_lt_two_pow
    (lt_of_lt_of_le h (Nat.pow_le_pow_right (by norm_num) (by omega)))

/-- Claim C7: every concrete word in the interval `[mn, mx]` is in the
concretisation of `from_range mn mx`; `from_range 5 5` equals `const_val 5`,
which is `{value 5, mask 0}`. -/
theorem Tnum.from_range_sound (mn mx w : Nat) (hmx : mx < U64) (h1 : mn ≤ w) (h2 : w ≤ mx) :
    tmem w (Tnum.from_range mn mx)
      ∧ Tnum.from_range 5 5 = Tnum.const_val 5 ∧ Tnum.const_val 5 = Tnum.mk 5 0 := by
  refine ⟨?_, by decide, rfl⟩
  have hw : w < U64 := lt_of_le_of_lt h2 hmx
  have hmn : mn < U64 := lt_of_le_of_lt (le_trans h1 h2) hmx
  have hchi : mn ^^^ mx < U64 := Nat.xor_lt_two_pow hmn hmx
  simp only [Tnum.from_range]
  have hsz : size64 (mn ^^^ mx) ≤ 64 := sizeAux_le 64 _ 64 hchi
  have hbits : 64 - lz64 (mn ^^^ mx) = size64 (mn ^^^ mx) := by
    unfold lz64
    omega
  rw [hbits]
  by_cases htop : 63 < size64 (mn ^^^ mx)
  · rw [if_pos htop]
    show (w ^^^ 0) &&& not64 (U64 - 1) = 0
    rw [Nat.xor_zero, not64_allones, Nat.and_zero]
  · rw [if_neg htop]
    rw [Nat.one_shiftLeft]
    have hple : (2 : Nat) ^ size64 (mn ^^^ mx) ≤ 2 ^ 63 :=
      Nat.pow_le_pow_right (by norm_num) (by omega)
    have hmask_lt : 2 ^ size64 (mn ^^^ mx) - 1 < U64 := by
      show 2 ^ size64 (mn ^^^ mx) - 1 < 2 ^ 64
      omega
    rw [tmem_iff_mk hmask_lt]
    intro i hi hdi
    rw [Nat.testBit_two_pow_sub_one] at hdi
    have hsi : size64 (mn ^^^ mx) ≤ i := by simpa using hdi
    rw [Nat.testBit_and, testBit_not64, Nat.testBit_two_pow_sub_one,
      decide_eq_false (not_lt.mpr hsi)]
    simp only [hi, decide_True, Bool.xor_false, Bool.and_true]
    have hq : mn >>> size64 (mn ^^^ mx) = mx >>> size64 (mn ^^^ mx) :=
      xor_lt_imp_shiftRight_eq (lt_two_pow_sizeAux 64 _ hchi)
    have hwq : w >>> size64 (mn ^^^ mx) = mn >>> size64 (mn ^^^ mx) := by
      have l1 : mn >>> size64 (mn ^^^ mx) ≤ w >>> size64 (mn ^^^ mx) := by
        rw [Nat.shiftRight_eq_div_pow, Nat.shiftRight_eq_div_pow]
        exact Nat.div_le_div_right h1
      have l2 : w >>> size64 (mn ^^^ mx) ≤ mx >>> size64 (mn ^^^ mx) := by
        rw [Nat.shiftRight_eq_div_pow, Nat.shiftRight_eq_div_pow]
        exact Nat.div_le_div_right h2
      omega
    have hwbit : w.testBit i = (w >>> size64 (mn ^^^ mx)).testBit (i - size64 (mn ^^^ mx)) := by
      rw [Nat.testBit_shiftRight, Nat.add_sub_cancel' hsi]
    rw [hwbit, hwq, Nat.testBit_shiftRight, Nat.add_sub_cancel' hsi]

/-- Claim C7 (witness): `7 ∈ γ(from_range 5 9)` and the literal facts. -/
theorem Tnum.from_range_sound_witness :
    tmem 7 (Tnum.from_range 5 9)
      ∧ Tnum.from_range 5 5 = Tnum.const_val 5 ∧ Tnum.const_val 5 = Tnum.mk 5 0 :=
  Tnum.from_range_sound 5 9 7 (by decide) (by decide) (by decide)

/- ### Claim C8 -/

theorem not64_and_self {m : Nat} (hm : m < U64) : not64 m &&& m = 0 := by
  have h := not64_xor_and_self hm (Nat.zero_and m)
  rwa [Nat.zero_xor] at h

theorem Tnum.join_comm (A B : Tnum) : A.join B = B.join A := by
  simp only [Tnum.join]
  rw [Nat.xor_comm A.value B.value, Nat.lor_comm A.mask B.mask,
    Nat.lor_comm A.value B.value]

theorem Tnum.le_join_left (A B : Tnum) (hA : Wf A) (hB : Wf B) :
    A.le (A.join B) = true := by
  obtain ⟨hAv, hAm, hAd⟩ := hA
  obtain ⟨hBv, hBm, hBd⟩ := hB
  by_cases htop : (A.join B).is_top = true
  · simp only [Tnum.le, htop, Bool.true_or, if_true]
  · rw [Bool.not_eq_true] at htop
    have hAtop : A.is_top = false := by
      by_cases h : A.is_top = true
      · exfalso
        have hA0 : A.value = 0 ∧ A.mask = U64 - 1 := by
          simpa only [Tnum.is_top, Bool.and_eq_true, beq_iff_eq] using h
        have hJt : (A.join B).is_top = true := by
          simp only [Tnum.join, Tnum.is_top, hA0.1, hA0.2]
          rw [Nat.zero_xor, lor_ones_left hBm, lor_ones_left hBv, not64_allones, Nat.and_zero]
          decide
        rw [hJt] at htop
        exact Bool.noConfusion htop
      · rwa [Bool.not_eq_true] at h
    have hmlt : A.mask ||| B.mask ||| (A.value ^^^ B.value) < U64 :=
      Nat.or_lt_two_pow (Nat.or_lt_two_pow hAm hBm) (Nat.xor_lt_two_pow hAv hBv)
    have hJm : (A.join B).mask = A.mask ||| B.mask ||| (A.value ^^^ B.value) := rfl
    have hJv : (A.join B).value
        = (A.value ||| B.value) &&& not64 (A.mask ||| B.mask ||| (A.value ^^^ B.value)) := rfl
    have hJb : (A.join B).is_bottom = false := by
      simp only [Tnum.is_bottom, hJm, hJv]
      rw [Nat.and_assoc, not64_and_self hmlt, Nat.and_zero]
      decide
    have hAb : A.is_bottom = false := by simp [Tnum.is_bottom, hAd]
    have hsub : A.mask &&& not64 (A.join B).mask = 0 := by
      rw [hJm]
      apply Nat.eq_of_testBit_eq
      intro i
      rw [Nat.testBit_and, testBit_not64, Nat.zero_testBit, Nat.testBit_or, Nat.testBit_or]
      by_cases hi : i < 64
      · cases hAmi : A.mask.testBit i <;> simp [hi, hAmi]
      · simp [hi, testBit_ge_64 hAm (le_of_not_lt hi)]
    have hveq : A.value &&& not64 (A.join B).mask = (A.join B).value := by
      rw [hJm, hJv]
      apply Nat.eq_of_testBit_eq
      intro i
      rw [Nat.testBit_and, Nat.testBit_and, testBit_not64,
        Nat.testBit_or, Nat.testBit_or, Nat.testBit_or, Nat.testBit_xor]
      by_cases hi : i < 64
      · cases h1 : A.value.testBit i <;> cases h2 : B.value.testBit i <;>
          cases h3 : A.mask.testBit i <;> cases h4 : B.mask.testBit i <;>
            simp [hi, h1, h2, h3, h4]
      · simp [hi, testBit_ge_64 hAv (le_of_not_lt hi), testBit_ge_64 hBv (le_of_not_lt hi)]
    simp only [Tnum.le, htop, hAb, hJb, hAtop, Bool.or_self, Bool.false_or, Bool.or_false,
      Bool.false_eq_true, if_false]
    by_cases heq : (A.value == (A.join B).value && A.mask == (A.join B).mask) = true
    · rw [if_pos heq]
    · rw [if_neg heq]
      rw [if_neg (show ¬((A.mask &&& not64 (A.join B).mask != 0) = true) from by
        rw [hsub]; decide)]
      rw [hveq]
      simp

/-- Claim C8: `join` is an upper bound for `le` — for every pair of
well-formed tnums `A` and `B`, `A.le(A.join(B))` and `B.le(A.join(B))`. -/
theorem Tnum.join_upper_bound (A B : Tnum) (hA : Wf A) (hB : Wf B) :
    A.le (A.join B) = true ∧ B.le (A.join B) = true := by
  refine ⟨Tnum.le_join_left A B hA hB, ?_⟩
  rw [Tnum.join_comm]
  exact Tnum.le_join_left B A hB hA

/-- Claim C8 (witness): the upper-bound property at `{2,1}` and `{8,4}`. -/
theorem Tnum.join_upper_bound_witness :
    (Tnum.mk 2 1).le ((Tnum.mk 2 1).join (Tnum.mk 8 4)) = true
      ∧ (Tnum.mk 8 4).le ((Tnum.mk 2 1).join (Tnum.mk 8 4)) = true :=
  Tnum.join_upper_bound (Tnum.mk 2 1) (Tnum.mk 8 4) (by decide) (by decide)

/- ### Claims C1 and C2 -/

theorem fastContract_three : FastContract 3 12297829382473034411 1 := by
  intro n hn
  rw [Nat.div_div_eq_div_mul]
  show n / 3 = n * 12297829382473034411 / 36893488147419103232
  have hn2 : n < 2 ^ 64 := hn
  have h3 : 3 * (n * 12297829382473034411) = n * 36893488147419103232 + n := by ring
  omega

/-- Claim C1: the divisor 3 is classified `Fast` with magic
`0xAAAAAAAAAAAAAAAB` and shift 1 (the contract `floor(n/d) = ((n*magic) >>
64) >> shift` is proved for all 64-bit `n`), yet the Fast path of
`fast_divide` computes `const_val(6) / const_val(3)` as the constant tnum
`{0, 0}`, whose concretisation does not contain `floor(6/3) = 2`: the code
reduces the wrapping 64-bit product by `>> 32` instead of taking the high
half of the 128-bit product. -/
theorem Tnum.fast_divide_fast_path_unsound :
    FastContract 3 12297829382473034411 1
      ∧ Tnum.fast_divide (fun _ => DividerU64.Fast 12297829382473034411 1)
          (Tnum.const_val 6) (Tnum.const_val 3) = some (Tnum.mk 0 0)
      ∧ ¬tmem (6 / 3) (Tnum.mk 0 0) :=
  ⟨fastContract_three, by decide, by decide⟩

/-- Claim C2: the same Fast path breaks the well-formedness invariant — on the
well-formed dividend `{value 1, mask 4}` and the `Fast`-classified divisor 3
it returns `{value 0x55555555, mask 0x55555555}`, whose `value AND mask` is
not zero. -/
theorem Tnum.fast_divide_fast_path_wf_violation :
    FastContract 3 12297829382473034411 1
      ∧ Wf (Tnum.mk 1 4)
      ∧ Tnum.fast_divide (fun _ => DividerU64.Fast 12297829382473034411 1)
          (Tnum.mk 1 4) (Tnum.const_val 3) = some (Tnum.mk 1431655765 1431655765)
      ∧ (Tnum.mk 1431655765 1431655765).value &&& (Tnum.mk 1431655765 1431655765).mask ≠ 0 :=
  ⟨fastContract_three, by decide, by decide, by decide⟩

/- ### Claim C3 -/

/-- Claim C3: division and remainder of the constant 5 by the constant 0 do
not return `top` — both `srem` and `signed_div` take the singleton/singleton
branch before the zero-divisor check and divide by zero (`none` models the
Rust panic). -/
theorem Tnum.srem_signed_div_zero_divisor_panics :
    Tnum.srem (Tnum.const_val 5) (Tnum.const_val 0) = none
      ∧ Tnum.signed_div (Tnum.const_val 5) (Tnum.const_val 0) = none :=
  ⟨by decide, by decide⟩
